import Mathlib

/-!
Verification of the branching conversation-history engine of
`list91/agent-team-cli`.

The definitions below are a shallow embedding of the JavaScript in
`src/src/webview/scripts.js` (the webview chat-tree implementation:
`getCurrentBranch`, `getMaxBranchIndex`, `createNewBranch`, `switchBranch`,
`handleMessageSubmit`, `renderChat`) and, for the path resolver, of
`findPathToIndex` in `src/web-app/js/app.js`.

JavaScript objects used as maps become association lists (property insertion
appends a new key, assignment to an existing key updates it in place);
reading a missing property yields `Option.none`; a dereference of
`undefined` (a thrown `TypeError`) is modelled as an explicit `crash`
outcome.  State mutation becomes explicit state passing: every operation
receives the chat state and returns the updated state.  `generateMessageId`
(wall clock + randomness) is modelled by passing the fresh id as an
argument.
-/

namespace AgentTeam

/-- A chat message as constructed by `scripts.js`: the object literals there
are `{id, content, sender}`; `isEdited` and `originalMessageId` are never
set by this implementation, so reading them yields `undefined`, modelled as
an `Option` that the constructors leave at `none`. -/
structure Message where
  id : Nat
  content : String
  sender : String
  isEdited : Option Bool
  originalMessageId : Option Nat
deriving DecidableEq, Repr

/-- A chat branch: `{messages: [...], branches: {msgId: {branchIdx: Branch}}}`.
The `parent` back-reference of the source is navigation-only and never read
by the embedded operations, so it is not part of the model. -/
inductive Branch where
  | mk (messages : List Message) (forks : List (Nat × List (Nat × Branch))) : Branch

/-- The `messages` array of a branch. -/
def Branch.messages : Branch → List Message
  | .mk ms _ => ms

/-- The `branches` object of a branch: message id ↦ branch index ↦ child. -/
def Branch.forks : Branch → List (Nat × List (Nat × Branch))
  | .mk _ fs => fs

/-- The module-level `chatBranches` object: `{currentPath, branches}`. -/
structure ChatState where
  currentPath : List Nat
  branches : List (Nat × Branch)

/-- `obj[k] = v` on a JS object used as a map: update an existing key in
place, or append a new key (JS insertion order). -/
def setKey {α : Type} (l : List (Nat × α)) (k : Nat) (v : α) : List (Nat × α) :=
  match l with
  | [] => [(k, v)]
  | (k', v') :: rest => if k' = k then (k, v) :: rest else (k', v') :: setKey rest k v

/-- `chatBranches` right after load / after `startNewChat()`. -/
def initialState : ChatState :=
  { currentPath := [1], branches := [(1, Branch.mk [] [])] }

/-- The scan inside `getCurrentBranch`'s `while` loop: walk `messages` in
order looking for a message whose id has a fork map containing the next
path entry; return that message's id and the chosen child. -/
def scanDescend (forks : List (Nat × List (Nat × Branch))) (next : Nat) :
    List Message → Option (Nat × Branch)
  | [] => none
  | msg :: rest =>
    match List.lookup msg.id forks with
    | some children =>
      match List.lookup next children with
      | some nb => some (msg.id, nb)
      | none => scanDescend forks next rest
    | none => scanDescend forks next rest

/-- The loop of `getCurrentBranch`: follow the tail of `currentPath` as far
as it matches, returning the deepest branch actually reached. -/
def goCurrent : Branch → List Nat → Branch
  | b, [] => b
  | b, next :: rest =>
    match scanDescend b.forks next b.messages with
    | some (_, nb) => goCurrent nb rest
    | none => b

/-- `getCurrentBranch()`: `null` when `branches[currentPath[0]]` is missing,
otherwise the deepest branch reached along `currentPath`. -/
def getCurrentBranch (s : ChatState) : Option Branch :=
  match s.currentPath with
  | [] => none
  | p0 :: rest =>
    match List.lookup p0 s.branches with
    | none => none
    | some root => some (goCurrent root rest)

/-- Rebuild the tree after mutating the branch reached by `goCurrent`:
the source mutates that branch object in place through its alias. -/
def goUpdate (f : Branch → Branch) : Branch → List Nat → Branch
  | b, [] => f b
  | b, next :: rest =>
    match scanDescend b.forks next b.messages with
    | some (mId, nb) =>
      match List.lookup mId b.forks with
      | some children =>
        Branch.mk b.messages (setKey b.forks mId (setKey children next (goUpdate f nb rest)))
      | none => b
    | none => f b

/-- The message-append path of `handleMessageSubmit` (and the bot-response
listener): push `{id, content, sender}` onto the current branch's
`messages`.  When `getCurrentBranch()` is `null` the source logs and
returns without mutating. -/
def addMessage (s : ChatState) (content : String) (sender : String) (fresh : Nat) :
    ChatState :=
  match s.currentPath with
  | [] => s
  | p0 :: rest =>
    match List.lookup p0 s.branches with
    | none => s
    | some root =>
      let push := fun (b : Branch) =>
        Branch.mk (b.messages ++ [⟨fresh, content, sender, none, none⟩]) b.forks
      { s with branches := setKey s.branches p0 (goUpdate push root rest) }

/-- `getMaxBranchIndex(branches)`: 1 for an absent/empty fork table, else
`Math.max` over every branch index of every fork entry of the table (note:
not only the entry of the message being edited). -/
def getMaxBranchIndex (forks : List (Nat × List (Nat × Branch))) : Nat :=
  if forks.isEmpty then 1
  else ((forks.map (fun e => e.2.map Prod.fst)).flatten).foldl Nat.max 0

/-- Outcome of `createNewBranch`: a thrown `TypeError` during the search
loop, the `return null` path, or success returning the new branch index
together with the mutated state. -/
inductive CnbOut where
  | crash : CnbOut
  | noTarget : CnbOut
  | created (idx : Nat) (s : ChatState) : CnbOut

/-- The search loop of `createNewBranch` (lines 89–101): starting at the
root with `pathIndex = 0`, look for `messageId` in the current branch; if
absent and the path is longer, descend through
`branches[messages[pathIndex].id][currentPath[pathIndex+1]]`.
The loop state `(pathIndex, cpRest)` carries `currentPath.drop (pathIndex+1)`
in `cpRest`, so `pathIndex + 1 < currentPath.length` is `cpRest ≠ []` and
`currentPath[pathIndex+1]` is its head.
Reading `.id` of a missing message, or indexing a missing fork map, throws
(`Except.error`); a missing child makes the `while` guard fail, i.e. the
message is simply not found.  On success, returns the descent steps taken,
the branch found, and the message's index in it. -/
def cnbFind (mId : Nat) : (b : Branch) → (pathIndex : Nat) → (cpRest : List Nat) →
    (steps : List (Nat × Nat)) →
    Except Unit (Option (List (Nat × Nat) × Branch × Nat))
  | b, _, [], steps =>
    match List.findIdx? (fun x => x.id = mId) b.messages with
    | some i => .ok (some (steps, b, i))
    | none => .ok none
  | b, pathIndex, nextId :: cpRest2, steps =>
    match List.findIdx? (fun x => x.id = mId) b.messages with
    | some i => .ok (some (steps, b, i))
    | none =>
      match b.messages.get? pathIndex with
      | none => .error ()
      | some pm =>
        match List.lookup pm.id b.forks with
        | none => .error ()
        | some children =>
          match List.lookup nextId children with
          | some nb => cnbFind mId nb (pathIndex + 1) cpRest2 (steps ++ [(pm.id, nextId)])
          | none => .ok none

/-- Write an updated branch back over the branch reached by the recorded
descent steps (in the source this happens implicitly: the loop variable
aliases a node of the tree and is mutated in place). -/
def writeSteps : Branch → List (Nat × Nat) → Branch → Branch
  | _, [], b' => b'
  | b, (mId, k) :: rest, b' =>
    match List.lookup mId b.forks with
    | some children =>
      match List.lookup k children with
      | some nb =>
        Branch.mk b.messages (setKey b.forks mId (setKey children k (writeSteps nb rest b')))
      | none => b
    | none => b

/-- `createNewBranch(messageId, content)` (lines 81–152).  On the first
fork of a message: children `"1"` (the sliced-off continuation) and `"2"`
(a single new user message), then truncate `messages` to the fork point.
On a repeated fork: a new child at `getMaxBranchIndex(branches) + 1`.
`currentPath` is never touched here. -/
def createNewBranch (s : ChatState) (mId : Nat) (content : String) (fresh : Nat) :
    CnbOut :=
  match s.currentPath with
  | [] => .noTarget
  | p0 :: rest =>
    match List.lookup p0 s.branches with
    | none => .noTarget
    | some root =>
      match cnbFind mId root 0 rest [] with
      | .error _ => .crash
      | .ok none => .noTarget
      | .ok (some (steps, tb, i)) =>
        let newMsg : Message := ⟨fresh, content, "user", none, none⟩
        match List.lookup mId tb.forks with
        | none =>
          let branch1 := Branch.mk (tb.messages.drop (i + 1)) []
          let branch2 := Branch.mk [newMsg] []
          let tb' := Branch.mk (tb.messages.take (i + 1))
            (setKey tb.forks mId [(1, branch1), (2, branch2)])
          .created 2 { s with branches := setKey s.branches p0 (writeSteps root steps tb') }
        | some children =>
          let newIndex := getMaxBranchIndex tb.forks + 1
          let tb' := Branch.mk tb.messages
            (setKey tb.forks mId (setKey children newIndex (Branch.mk [newMsg] [])))
          .created newIndex
            { s with branches := setKey s.branches p0 (writeSteps root steps tb') }

/-- Outcome of `switchBranch`: a thrown `TypeError` during the walk, or
completion with the (possibly unchanged) state. -/
inductive SwOut where
  | crash : SwOut
  | done (s : ChatState) : SwOut

/-- The walk of `switchBranch` (lines 161–179): accumulate `newPath` while
descending along `currentPath` (the loop state `(pathIndex, cpRest)` is as
in `cnbFind`); finding `messageId` in the current branch stops the walk
with the accumulated prefix.  A missing fork map or child hits the guarded
`break` (message not found); reading `.id` of a missing
`messages[pathIndex]` throws. -/
def swWalk (mId : Nat) : (b : Branch) → (pathIndex : Nat) → (cpRest : List Nat) →
    (newPath : List Nat) → Except Unit (Option (List Nat))
  | b, _, [], newPath =>
    match List.findIdx? (fun x => x.id = mId) b.messages with
    | some _ => .ok (some newPath)
    | none => .ok none
  | b, pathIndex, nextBranchId :: cpRest2, newPath =>
    match List.findIdx? (fun x => x.id = mId) b.messages with
    | some _ => .ok (some newPath)
    | none =>
      match b.messages.get? pathIndex with
      | none => .error ()
      | some pm =>
        match List.lookup pm.id b.forks with
        | none => .ok none
        | some children =>
          match List.lookup nextBranchId children with
          | none => .ok none
          | some nb => swWalk mId nb (pathIndex + 1) cpRest2 (newPath ++ [nextBranchId])

/-- `switchBranch(messageId, branchIndex)` (lines 154–195): when the walk
finds `messageId`, `currentPath` becomes the accumulated prefix plus
`branchIndex` — there is no check that `branches[messageId][branchIndex]`
exists, and no value is returned.  When the walk fails nothing is
mutated. -/
def switchBranch (s : ChatState) (mId : Nat) (branchIndex : Nat) : SwOut :=
  match s.currentPath with
  | [] => .done s
  | p0 :: rest =>
    match List.lookup p0 s.branches with
    | none => .done s
    | some root =>
      match swWalk mId root 0 rest [p0] with
      | .error _ => .crash
      | .ok none => .done s
      | .ok (some newPath) => .done { s with currentPath := newPath ++ [branchIndex] }

/-- Outcome of the edit flow: crash, or completion with the returned
branch index (`none` when nothing was edited) and the final state. -/
inductive EditOut where
  | crash : EditOut
  | done (result : Option Nat) (s : ChatState) : EditOut

/-- The editing path of `handleMessageSubmit` (lines 207–236), the
spec's `editMessage`: reject empty content (`content` stands for the
already-trimmed `messageInput.value.trim()`; the trim itself happens at
the DOM read), require the edited message to be in the active branch,
then `createNewBranch` followed by `switchBranch` onto the new index. -/
def editMessage (s : ChatState) (mId : Nat) (content : String) (fresh : Nat) :
    EditOut :=
  if content = "" then .done none s
  else
    match getCurrentBranch s with
    | none => .done none s
    | some active =>
      match List.findIdx? (fun x => x.id = mId) active.messages with
      | none => .done none s
      | some _ =>
        match createNewBranch s mId content fresh with
        | .crash => .crash
        | .noTarget => .done none s
        | .created idx s1 =>
          match switchBranch s1 mId idx with
          | .crash => .crash
          | .done s2 => .done (some idx) s2

/-- One call of `appendMessageToChat` in `renderChat`: the message together
with the metadata computed at the call site (`hasBranches`, the sorted
branch keys, the nesting depth, and the active flag). -/
structure RItem where
  msg : Message
  hasBranches : Bool
  branchKeys : List Nat
  depth : Nat
  isActive : Bool
deriving DecidableEq, Repr

/-- `Object.keys(branches[message.id]).sort((a,b) => parseInt(a) - parseInt(b))`. -/
def sortedKeys (children : List (Nat × Branch)) : List Nat :=
  (children.map Prod.fst).mergeSort (fun a b => a ≤ b)

/-- The `appendMessageToChat` record built for one message of the
`renderBranch` loop. -/
def mkRItem (cp path : List Nat) (depth : Nat)
    (children? : Option (List (Nat × Branch))) (msg : Message) : RItem :=
  { msg := msg
    hasBranches := match children? with
      | some cs => !cs.isEmpty
      | none => false
    branchKeys := match children? with
      | some cs => sortedKeys cs
      | none => []
    depth := depth
    isActive := (decide (path.length < cp.length) && path.isPrefixOf cp)
      || decide (cp.length ≤ path.length) }

/-- The `forEach` of `renderBranch`: emit each message's record followed by
its descent output (supplied by `descend`, empty for non-fork messages). -/
def renderLoop (descend : Message → List RItem) (item : Message → RItem) :
    List Message → List RItem
  | [] => []
  | msg :: rest => item msg :: (descend msg ++ renderLoop descend item rest)

/-- The recursive `renderBranch` of `renderChat` (lines 284-321), flattened
to the sequence of `appendMessageToChat` calls: each message is emitted,
and at a fork point lying on `currentPath` the chosen child is rendered
(depth + 1) before the remaining messages of the current branch.
As in the walks, `cpRest` carries `currentPath.drop path.length`, so at a
descent (which requires `path.length < currentPath.length`) the next
branch id `currentPath[path.length]` is its head. -/
def renderMsgs (cp : List Nat) : (cpRest : List Nat) → (path : List Nat) →
    (depth : Nat) → (forks : List (Nat × List (Nat × Branch))) →
    List Message → List RItem
  | [], path, depth, forks, msgs =>
    renderLoop (fun _ => []) (fun msg => mkRItem cp path depth (List.lookup msg.id forks) msg)
      msgs
  | nextId :: cpRest2, path, depth, forks, msgs =>
    renderLoop (fun msg =>
        let children? := List.lookup msg.id forks
        let hasB := match children? with
          | some cs => !cs.isEmpty
          | none => false
        let onPath := decide (path.length < cp.length) && path.isPrefixOf cp
        if onPath && hasB then
          match children? with
          | some cs =>
            match List.lookup nextId cs with
            | some nb =>
              renderMsgs cp cpRest2 (path ++ [nextId]) (depth + 1) nb.forks nb.messages
            | none => []
          | none => []
        else [])
      (fun msg => mkRItem cp path depth (List.lookup msg.id forks) msg)
      msgs

/-- `renderChat()` (lines 275–326) as a projection: the ordered sequence of
`appendMessageToChat` calls.  The initial statistics line dereferences
`getCurrentBranch().messages`, so a missing root crashes (`none`);
otherwise rendering starts at `branches[currentPath[0]]` with
`path = [currentPath[0]]`. -/
def projectChat (s : ChatState) : Option (List RItem) :=
  match s.currentPath with
  | [] => none
  | p0 :: rest =>
    match List.lookup p0 s.branches with
    | none => none
    | some root => some (renderMsgs s.currentPath rest [p0] 0 root.forks root.messages)

/-- `renderChat` as a state operation: it reads the tree and the path and
performs no assignment to either, so the state passes through unchanged
alongside the produced sequence. -/
def renderChatOp (s : ChatState) : Option (List RItem) × ChatState :=
  (projectChat s, s)

mutual

/-- Some message of a branch subtree satisfies `p`: either in its
`messages`, or in some child of some fork entry. -/
def anyB (p : Message → Bool) : Branch → Bool
  | .mk msgs forks => msgs.any p || anyForks p forks

/-- Some message of some fork entry of a fork table satisfies `p`. -/
def anyForks (p : Message → Bool) : List (Nat × List (Nat × Branch)) → Bool
  | [] => false
  | e :: rest => anyChildren p e.2 || anyForks p rest

/-- Some message of some child of a children table satisfies `p`. -/
def anyChildren (p : Message → Bool) : List (Nat × Branch) → Bool
  | [] => false
  | c :: rest => anyB p c.2 || anyChildren p rest

end

/-- A message id occurs in a branch subtree. -/
def occursB (mId : Nat) : Branch → Bool :=
  anyB (fun x => x.id = mId)

/-- A message id occurs somewhere in the whole tree. -/
def occursTree (mId : Nat) (s : ChatState) : Bool :=
  s.branches.any (fun e => occursB mId e.2)

/-- A message value is present in a branch subtree. -/
def memB (m : Message) : Branch → Bool :=
  anyB (fun x => x = m)

/-- A message value is present somewhere in the whole tree. -/
def memTree (m : Message) (s : ChatState) : Bool :=
  s.branches.any (fun e => memB m e.2)

end AgentTeam

namespace WebAppResolver

/-- One entry of the `history` arrays in `src/web-app/js/app.js`: messages
carry an `index` (branch marker) and a `diffusion` array of alternative
sub-histories, each tagged with a `diffusion_index`.  Entries missing the
`diffusion` property behave like an empty array in `findPathToIndex`
(`if (entry.diffusion)` merely guards the iteration). -/
inductive Entry where
  | mk (index : Nat) (content : String) (role : String)
       (diffusion : List (Nat × List Entry)) : Entry

/-- The `index` of an entry. -/
def Entry.index : Entry → Nat
  | .mk i _ _ _ => i

/-- The `diffusion` array of an entry. -/
def Entry.diffusion : Entry → List (Nat × List Entry)
  | .mk _ _ _ d => d

mutual

/-- One iteration of the `for` loop of `searchHistory` inside
`findPathToIndex` (lines 228–250): a hit pushes the target's index and
stops; otherwise the entry is pushed provisionally and every diffusion is
searched depth-first; on failure the provisional entry is popped again
(`none`). -/
def searchEntry (target : Nat) : Entry → Option (List Nat)
  | .mk i _c _r d =>
    if i = target then some [i]
    else
      match searchDiffs target d with
      | some p => some (i :: p)
      | none => none

/-- The inner `for (let diffusion of entry.diffusion)` loop: first
successful sub-history wins. -/
def searchDiffs (target : Nat) : List (Nat × List Entry) → Option (List Nat)
  | [] => none
  | (_, h) :: ds =>
    match searchHistory target h with
    | some p => some p
    | none => searchDiffs target ds

/-- `searchHistory` (lines 227–252): scan the history in order, first
successful entry wins. -/
def searchHistory (target : Nat) : List Entry → Option (List Nat)
  | [] => none
  | e :: rest =>
    match searchEntry target e with
    | some p => some p
    | none => searchHistory target rest

end

/-- `findPathToIndex(chat, targetIndex)` (lines 224–256): the collected
path, or `null` when the search left the path empty. -/
def findPathToIndex (history : List Entry) (target : Nat) : Option (List Nat) :=
  match searchHistory target history with
  | some p => if p.isEmpty then none else some p
  | none => none

mutual

/-- The target index occurs somewhere in a history. -/
def occursEntry (target : Nat) : Entry → Bool
  | .mk i _ _ d => (i = target) || occursDiffs target d

/-- Occurrence in any diffusion of a diffusion list. -/
def occursDiffs (target : Nat) : List (Nat × List Entry) → Bool
  | [] => false
  | (_, h) :: ds => occursHistory target h || occursDiffs target ds

/-- Occurrence in any entry of a history. -/
def occursHistory (target : Nat) : List Entry → Bool
  | [] => false
  | e :: rest => occursEntry target e || occursHistory target rest

end

/-- A small chat history in the shape of the `new_chat` sample of
`app.js`: one assistant entry with one diffusion. -/
def exHist : List Entry :=
  [Entry.mk 1 "hello" "assistant" [(2, [Entry.mk 2 "alt" "user" []])],
   Entry.mk 3 "bye" "user" []]

end WebAppResolver

namespace AgentTeam

/-- Extract the final state of an edit flow (`initialState` is irrelevant
filler for the crash case, used only on flows shown not to crash). -/
def editSt : EditOut → ChatState
  | .done _ s => s
  | .crash => initialState

/-- Extract the final state of a `switchBranch` call. -/
def swSt : SwOut → ChatState
  | .done s => s
  | .crash => initialState

/-- Extract the mutated state of a successful `createNewBranch`. -/
def cnbSt : CnbOut → ChatState
  | .created _ s => s
  | _ => initialState

/-- Extract the branch index returned by `createNewBranch` (`none` for the
null / crash outcomes). -/
def cnbIdx : CnbOut → Option Nat
  | .created i _ => some i
  | _ => none

/-- The messages of a projection, without render metadata. -/
def projMsgs (s : ChatState) : Option (List Message) :=
  (projectChat s).map (fun l => l.map RItem.msg)

/-- The `RItem` produced for a message at whose id the enclosing branch
has no fork entry. -/
def plainRItem (cp path : List Nat) (depth : Nat) (msg : Message) : RItem :=
  { msg := msg
    hasBranches := false
    branchKeys := []
    depth := depth
    isActive := (decide (path.length < cp.length) && path.isPrefixOf cp)
      || decide (cp.length ≤ path.length) }

/-- The assistant greeting of the spec's concrete scenario. -/
def msgA : Message := ⟨1, "hi", "assistant", none, none⟩

/-- The user message of the spec's concrete scenario. -/
def msgB : Message := ⟨2, "how are you", "user", none, none⟩

/-- The spec's concrete starting state: a root branch holding
`[A(assistant), B(user)]` with no forks. -/
def exS0 : ChatState :=
  { currentPath := [1], branches := [(1, Branch.mk [msgA, msgB] [])] }

/-- An empty branch (used as a child in handcrafted fork tables). -/
def emptyB : Branch := Branch.mk [] []

/-- A reachable state exhibiting two fork tables on the root branch: the
message with id 9 was edited twice and then truncated away by a fork at the
earlier message id 1 (see the operation chain `exT1`–`exTFin` below for a
fully operation-built analogue); the fork table of id 9 is stale but still
counted by `getMaxBranchIndex`. -/
def exC3s : ChatState :=
  { currentPath := [1]
    branches := [(1, Branch.mk [⟨1, "x", "user", none, none⟩]
      [(9, [(1, emptyB), (2, emptyB), (3, emptyB)]),
       (1, [(1, emptyB), (2, emptyB)])])] }

/-- A one-message state with no forks at all. -/
def exC4s : ChatState :=
  { currentPath := [1], branches := [(1, Branch.mk [⟨1, "a", "user", none, none⟩] [])] }

/-- Operation-built scenario refuting the unrestricted fork-preservation
claim.  Step 1–3: three user messages x, a, y. -/
def exT3 : ChatState :=
  addMessage (addMessage (addMessage initialState "x" "user" 1) "a" "user" 2) "y" "user" 3

/-- Step 4: first edit of message a (id 2) forks the root at a. -/
def exTE1 : ChatState := editSt (editMessage exT3 2 "n1" 4)

/-- Step 5: `switchBranch(a, 99)` — accepted although child 99 does not
exist, leaving `currentPath = [1, 99]`. -/
def exTSw : ChatState := swSt (switchBranch exTE1 2 99)

/-- Step 6: a further message c (id 5); `getCurrentBranch` falls back to
the root, so c lands after the fork point a. -/
def exTPre : ChatState := addMessage exTSw "c" "user" 5

/-- Step 7: the first edit of message c (id 5), the edit under test. -/
def exTE2 : ChatState := editSt (editMessage exTPre 5 "n2" 6)

/-- Step 8: `switchBranch(c, 1)` back onto c's original continuation. -/
def exTFin : ChatState := swSt (switchBranch exTE2 5 1)

/-- A state whose `currentPath` has a dangling second entry (99), reachable
through the unvalidated `switchBranch`. -/
def exC10s : ChatState :=
  { currentPath := [1, 99], branches := [(1, Branch.mk [msgA, msgB] [])] }

/-- A sequence of `addMessage` calls, each given as
`(content, sender, freshId)`. -/
def addAll (s : ChatState) : List (String × String × Nat) → ChatState
  | [] => s
  | (c, snd, f) :: rest => addAll (addMessage s c snd f) rest

/-- The message built by one `addMessage` call. -/
def mkAdded (t : String × String × Nat) : Message :=
  ⟨t.2.2, t.1, t.2.1, none, none⟩

/-- The root branch of `exS0`. -/
def exRoot : Branch := Branch.mk [msgA, msgB] []

/-- The state after the first fork of message B in `exS0`. -/
def exAfterFork : ChatState := cnbSt (createNewBranch exS0 2 "edited" 100)

/-! ### General lemmas about the association-list and traversal helpers -/

theorem mem_of_lookup {α : Type} {l : List (Nat × α)} {k : Nat} {v : α}
    (h : List.lookup k l = some v) : (k, v) ∈ l := by
  induction l with
  | nil => simp [List.lookup] at h
  | cons e rest ih =>
    obtain ⟨k', v'⟩ := e
    by_cases hk : k = k'
    · subst hk
      simp [List.lookup] at h
      simp [h]
    · rw [List.lookup, show (k == k') = false by simp [hk]] at h
      exact List.mem_cons_of_mem _ (ih h)

theorem lookup_any {α : Type} {l : List (Nat × α)} {k : Nat} {v : α}
    (g : α → Bool) (h : List.lookup k l = some v) (hv : g v = true) :
    (l.any fun e => g e.2) = true := by
  have hm := mem_of_lookup h
  exact List.any_eq_true.mpr ⟨(k, v), hm, hv⟩

theorem any_setKey {α : Type} (g : α → Bool) (l : List (Nat × α)) (k : Nat) (v : α)
    (h : ((setKey l k v).any fun e => g e.2) = true) :
    (l.any fun e => g e.2) = true ∨ g v = true := by
  rw [List.any_eq_true] at h
  obtain ⟨x, hx, hgx⟩ := h
  induction l with
  | nil =>
    simp only [setKey, List.mem_singleton] at hx
    subst hx
    exact Or.inr hgx
  | cons e rest ih =>
    obtain ⟨k', v'⟩ := e
    by_cases hk : k' = k
    · subst hk
      rw [setKey, if_pos rfl] at hx
      rcases List.mem_cons.mp hx with hx | hx
      · subst hx
        exact Or.inr hgx
      · exact Or.inl (List.any_eq_true.mpr ⟨x, List.mem_cons_of_mem _ hx, hgx⟩)
    · rw [setKey, if_neg hk] at hx
      rcases List.mem_cons.mp hx with hx | hx
      · subst hx
        exact Or.inl (List.any_eq_true.mpr ⟨(k', v'), List.mem_cons_self _ _, hgx⟩)
      · rcases ih hx with h2 | h2
        · rw [List.any_eq_true] at h2
          obtain ⟨y, hy, hgy⟩ := h2
          exact Or.inl (List.any_eq_true.mpr ⟨y, List.mem_cons_of_mem _ hy, hgy⟩)
        · exact Or.inr h2

theorem anyForks_eq_any (p : Message → Bool) (fs : List (Nat × List (Nat × Branch))) :
    anyForks p fs = fs.any (fun e => anyChildren p e.2) := by
  induction fs with
  | nil => rfl
  | cons e rest ih => simp [anyForks, List.any_cons, ih]

theorem anyChildren_eq_any (p : Message → Bool) (cs : List (Nat × Branch)) :
    anyChildren p cs = cs.any (fun c => anyB p c.2) := by
  induction cs with
  | nil => rfl
  | cons c rest ih => simp [anyChildren, List.any_cons, ih]

theorem Branch.messages_mk (ms : List Message) (fs : List (Nat × List (Nat × Branch))) :
    (Branch.mk ms fs).messages = ms := rfl

theorem Branch.forks_mk (ms : List Message) (fs : List (Nat × List (Nat × Branch))) :
    (Branch.mk ms fs).forks = fs := rfl

theorem anyB_def (p : Message → Bool) (b : Branch) :
    anyB p b = (b.messages.any p || anyForks p b.forks) := by
  obtain ⟨ms, fs⟩ := b
  rfl

theorem anyB_of_mem_messages {p : Message → Bool} {b : Branch} {x : Message}
    (hx : x ∈ b.messages) (hp : p x = true) : anyB p b = true := by
  rw [anyB_def, Bool.or_eq_true]
  exact Or.inl (List.any_eq_true.mpr ⟨x, hx, hp⟩)

theorem anyB_of_forks {p : Message → Bool} {b : Branch}
    (h : anyForks p b.forks = true) : anyB p b = true := by
  rw [anyB_def, Bool.or_eq_true]
  exact Or.inr h

theorem anyForks_of_lookup {p : Message → Bool} {fs : List (Nat × List (Nat × Branch))}
    {mId : Nat} {cs : List (Nat × Branch)}
    (h : List.lookup mId fs = some cs) (hc : anyChildren p cs = true) :
    anyForks p fs = true := by
  rw [anyForks_eq_any]
  exact lookup_any _ h hc

theorem anyChildren_of_lookup {p : Message → Bool} {cs : List (Nat × Branch)}
    {k : Nat} {nb : Branch}
    (h : List.lookup k cs = some nb) (hb : anyB p nb = true) :
    anyChildren p cs = true := by
  rw [anyChildren_eq_any]
  exact lookup_any _ h hb

/-- Any message in a descendant reached through a fork lookup chain is a
message of the ancestor. -/
theorem anyB_of_lookup_chain {p : Message → Bool} {b : Branch} {mId k : Nat}
    {cs : List (Nat × Branch)} {nb : Branch}
    (h1 : List.lookup mId b.forks = some cs) (h2 : List.lookup k cs = some nb)
    (hb : anyB p nb = true) : anyB p b = true :=
  anyB_of_forks (anyForks_of_lookup h1 (anyChildren_of_lookup h2 hb))

theorem anyChildren_setKey {p : Message → Bool} {cs : List (Nat × Branch)}
    {k : Nat} {nb : Branch}
    (h : anyChildren p (setKey cs k nb) = true) :
    anyChildren p cs = true ∨ anyB p nb = true := by
  rw [anyChildren_eq_any] at h
  rcases any_setKey _ _ _ _ h with h | h
  · exact Or.inl ((anyChildren_eq_any p cs).symm ▸ h)
  · exact Or.inr h

theorem anyForks_setKey {p : Message → Bool} {fs : List (Nat × List (Nat × Branch))}
    {mId : Nat} {cs : List (Nat × Branch)}
    (h : anyForks p (setKey fs mId cs) = true) :
    anyForks p fs = true ∨ anyChildren p cs = true := by
  rw [anyForks_eq_any] at h
  rcases any_setKey _ _ _ _ h with h | h
  · exact Or.inl ((anyForks_eq_any p fs).symm ▸ h)
  · exact Or.inr h

/-- Messages of the tree after `writeSteps` come from the original tree or
from the written-in branch. -/
theorem writeSteps_any {p : Message → Bool} (b : Branch) (steps : List (Nat × Nat))
    (b' : Branch) (h : anyB p (writeSteps b steps b') = true) :
    anyB p b = true ∨ anyB p b' = true := by
  induction steps generalizing b with
  | nil => exact Or.inr h
  | cons st rest ih =>
    obtain ⟨mId, k⟩ := st
    rw [writeSteps] at h
    split at h
    · rename_i children h1
      split at h
      · rename_i nb h2
        rw [anyB_def, Branch.messages_mk, Branch.forks_mk, Bool.or_eq_true] at h
        rcases h with h | h
        · obtain ⟨x, hx, hpx⟩ := List.any_eq_true.mp h
          exact Or.inl (anyB_of_mem_messages hx hpx)
        · rcases anyForks_setKey h with h3 | h3
          · exact Or.inl (anyB_of_forks h3)
          · rcases anyChildren_setKey h3 with h4 | h4
            · exact Or.inl (anyB_of_forks (anyForks_of_lookup h1 h4))
            · rcases ih nb h4 with h5 | h5
              · exact Or.inl (anyB_of_lookup_chain h1 h2 h5)
              · exact Or.inr h5
      · exact Or.inl h
    · exact Or.inl h

/-- A successful `scanDescend` is a fork lookup chain. -/
theorem scanDescend_lookup {forks : List (Nat × List (Nat × Branch))} {next : Nat}
    {msgs : List Message} {mId : Nat} {nb : Branch}
    (h : scanDescend forks next msgs = some (mId, nb)) :
    ∃ cs, List.lookup mId forks = some cs ∧ List.lookup next cs = some nb := by
  induction msgs with
  | nil => simp [scanDescend] at h
  | cons msg rest ih =>
    rw [scanDescend] at h
    split at h
    · rename_i children h1
      split at h
      · rename_i nb' h2
        obtain ⟨h3, h4⟩ := Prod.mk.injEq .. ▸ Option.some.inj h
        subst h3
        subst h4
        exact ⟨children, h1, h2⟩
      · exact ih h
    · exact ih h

/-- Every message of the branch `goCurrent` lands on is a message of the
starting branch's subtree. -/
theorem goCurrent_any {p : Message → Bool} (b : Branch) (rest : List Nat)
    (h : anyB p (goCurrent b rest) = true) : anyB p b = true := by
  induction rest generalizing b with
  | nil => exact h
  | cons next rest2 ih =>
    rw [goCurrent] at h
    cases hs : scanDescend b.forks next b.messages with
    | none => rw [hs] at h; exact h
    | some pr =>
      obtain ⟨mId, nb⟩ := pr
      rw [hs] at h
      obtain ⟨cs, h1, h2⟩ := scanDescend_lookup hs
      exact anyB_of_lookup_chain h1 h2 (ih nb h)

/-- The branch located by `createNewBranch`'s search loop lies inside the
starting branch's subtree. -/
theorem cnbFind_any {p : Message → Bool} (mId : Nat) (cpRest : List Nat) :
    ∀ (b : Branch) (pathIndex : Nat) (st steps : List (Nat × Nat))
      (tb : Branch) (i : Nat),
      cnbFind mId b pathIndex cpRest st = .ok (some (steps, tb, i)) →
      anyB p tb = true → anyB p b = true := by
  induction cpRest with
  | nil =>
    intro b pathIndex st steps tb i h hb
    rw [cnbFind] at h
    split at h
    · simp only [Except.ok.injEq, Option.some.injEq, Prod.mk.injEq] at h
      obtain ⟨-, h2, -⟩ := h
      exact h2 ▸ hb
    · simp at h
  | cons nextId cpRest2 ih =>
    intro b pathIndex st steps tb i h hb
    rw [cnbFind] at h
    split at h
    · simp only [Except.ok.injEq, Option.some.injEq, Prod.mk.injEq] at h
      obtain ⟨-, h2, -⟩ := h
      exact h2 ▸ hb
    · split at h
      · exact Except.noConfusion h
      · rename_i pm hget
        split at h
        · exact Except.noConfusion h
        · rename_i children hlk
          split at h
          · rename_i nb hlk2
            exact anyB_of_lookup_chain hlk hlk2 (ih nb (pathIndex + 1) _ steps tb i h hb)
          · simp at h

theorem init_le_foldl_max (l : List Nat) (a : Nat) : a ≤ l.foldl Nat.max a := by
  induction l generalizing a with
  | nil => exact Nat.le_refl a
  | cons y rest ih =>
    calc a ≤ Nat.max a y := Nat.le_max_left a y
      _ ≤ rest.foldl Nat.max (Nat.max a y) := ih _

theorem le_foldl_max (l : List Nat) (a : Nat) : ∀ x ∈ l, x ≤ l.foldl Nat.max a := by
  induction l generalizing a with
  | nil => intro x hx; simp at hx
  | cons y rest ih =>
    intro x hx
    rcases List.mem_cons.mp hx with hx | hx
    · subst hx
      calc x ≤ Nat.max a x := Nat.le_max_right a x
        _ ≤ rest.foldl Nat.max (Nat.max a x) := init_le_foldl_max rest _
    · exact ih (Nat.max a y) x hx

/-- Every branch index anywhere in a fork table is bounded by
`getMaxBranchIndex`. -/
theorem key_le_getMaxBranchIndex {forks : List (Nat × List (Nat × Branch))}
    {mId : Nat} {cs : List (Nat × Branch)} {k : Nat} {b : Branch}
    (h1 : (mId, cs) ∈ forks) (h2 : (k, b) ∈ cs) :
    k ≤ getMaxBranchIndex forks := by
  have hne : forks.isEmpty = false := by
    cases forks with
    | nil => simp at h1
    | cons _ _ => rfl
  rw [getMaxBranchIndex, hne]
  simp only [Bool.false_eq_true, if_false]
  apply le_foldl_max
  rw [List.mem_flatten]
  refine ⟨cs.map Prod.fst, ?_, ?_⟩
  · exact List.mem_map.mpr ⟨(mId, cs), h1, rfl⟩
  · exact List.mem_map.mpr ⟨(k, b), h2, rfl⟩

theorem findIdx?_some_spec {α : Type} {p : α → Bool} {l : List α} {i : Nat}
    (h : List.findIdx? p l = some i) :
    ∃ a, l.get? i = some a ∧ p a = true ∧ ∀ y ∈ l.take i, p y = false := by
  induction l generalizing i with
  | nil => simp at h
  | cons x xs ih =>
    rw [List.findIdx?_cons] at h
    by_cases hp : p x = true
    · rw [if_pos hp] at h
      obtain rfl := Option.some.inj h
      exact ⟨x, rfl, hp, by simp⟩
    · rw [if_neg hp] at h
      rw [List.findIdx?_succ] at h
      cases hx : List.findIdx? p xs with
      | none => rw [hx] at h; simp at h
      | some j =>
        rw [hx] at h
        simp at h
        subst h
        obtain ⟨a, hget, hpa, htake⟩ := ih hx
        refine ⟨a, hget, hpa, ?_⟩
        intro y hy
        rw [List.take_succ_cons] at hy
        rcases List.mem_cons.mp hy with hy | hy
        · subst hy
          exact eq_false_of_ne_true hp
        · exact htake y hy

theorem findIdx?_take_succ {α : Type} {p : α → Bool} {l : List α} {i : Nat}
    (h : List.findIdx? p l = some i) :
    List.findIdx? p (l.take (i + 1)) = some i := by
  induction l generalizing i with
  | nil => simp at h
  | cons x xs ih =>
    rw [List.findIdx?_cons] at h
    by_cases hp : p x = true
    · rw [if_pos hp] at h
      obtain rfl := Option.some.inj h
      simp [List.findIdx?_cons, hp]
    · rw [if_neg hp] at h
      rw [List.findIdx?_succ] at h
      cases hx : List.findIdx? p xs with
      | none => rw [hx] at h; simp at h
      | some j =>
        rw [hx] at h
        simp at h
        subst h
        rw [List.take_succ_cons, List.findIdx?_cons, if_neg hp, List.findIdx?_succ, ih hx]
        rfl

/-- A message with no fork entry renders to the plain record. -/
theorem plainRItem_eq_mkRItem (cp path : List Nat) (depth : Nat) (msg : Message) :
    plainRItem cp path depth msg = mkRItem cp path depth none msg := rfl

/-- `renderLoop` over messages whose descent output is empty is a map. -/
theorem renderLoop_no_descend (descend : Message → List RItem) (item : Message → RItem)
    (msgs : List Message) (h : ∀ msg ∈ msgs, descend msg = []) :
    renderLoop descend item msgs = msgs.map item := by
  induction msgs with
  | nil => rfl
  | cons msg rest ih =>
    rw [renderLoop, h msg (List.mem_cons_self _ _),
      ih (fun y hy => h y (List.mem_cons_of_mem _ hy))]
    rfl

/-- `renderLoop` distributes over append. -/
theorem renderLoop_append (descend : Message → List RItem) (item : Message → RItem)
    (l1 l2 : List Message) :
    renderLoop descend item (l1 ++ l2) =
      renderLoop descend item l1 ++ renderLoop descend item l2 := by
  induction l1 with
  | nil => rfl
  | cons x xs ih =>
    rw [List.cons_append, renderLoop, renderLoop, ih]
    simp

/-- The descent function of `renderMsgs` returns nothing on a message with
no fork entry. -/
theorem renderMsgs_descend_no_fork (cp : List Nat) (nextId : Nat) (cpRest2 path : List Nat)
    (depth : Nat) (forks : List (Nat × List (Nat × Branch))) (msg : Message)
    (hx : List.lookup msg.id forks = none) :
    renderMsgs cp (nextId :: cpRest2) path depth forks [msg] =
      [mkRItem cp path depth none msg] := by
  rw [renderMsgs]
  simp only [renderLoop, hx]
  simp

/-- Rendering a branch with an empty fork table emits exactly its messages
in order, with no descents. -/
theorem renderMsgs_no_forks (cp cpRest path : List Nat) (depth : Nat)
    (msgs : List Message) :
    renderMsgs cp cpRest path depth [] msgs = msgs.map (plainRItem cp path depth) := by
  cases cpRest with
  | nil =>
    rw [renderMsgs]
    exact renderLoop_no_descend _ _ _ (fun _ _ => rfl)
  | cons nextId cpRest2 =>
    rw [renderMsgs]
    refine renderLoop_no_descend _ _ _ (fun msg _ => ?_)
    simp [List.lookup]

/-- Projecting the message field out of plainly rendered items recovers the
messages. -/
theorem map_msg_plainRItem (cp path : List Nat) (depth : Nat) (l : List Message) :
    (l.map (plainRItem cp path depth)).map RItem.msg = l := by
  induction l with
  | nil => rfl
  | cons x xs ih =>
    have hx : (plainRItem cp path depth x).msg = x := rfl
    simp only [List.map_cons, hx, ih]

/-- Rendering skips descent over a leading block of messages without fork
entries. -/
theorem renderMsgs_append_no_fork (cp cpRest path : List Nat) (depth : Nat)
    (forks : List (Nat × List (Nat × Branch))) (l1 l2 : List Message)
    (h : ∀ x ∈ l1, List.lookup x.id forks = none) :
    renderMsgs cp cpRest path depth forks (l1 ++ l2) =
      l1.map (plainRItem cp path depth) ++ renderMsgs cp cpRest path depth forks l2 := by
  cases cpRest with
  | nil =>
    rw [renderMsgs, renderLoop_append, renderMsgs]
    congr 1
    refine renderLoop_no_descend _ _ _ (fun _ _ => rfl) |>.trans ?_
    apply List.map_congr_left
    intro x hx
    rw [plainRItem_eq_mkRItem, h x hx]
  | cons nextId cpRest2 =>
    rw [renderMsgs, renderLoop_append, renderMsgs]
    congr 1
    have hno : ∀ msg ∈ l1,
        (fun msg =>
          let children? := List.lookup msg.id forks
          let hasB := match children? with
            | some cs => !cs.isEmpty
            | none => false
          let onPath := decide (path.length < cp.length) && path.isPrefixOf cp
          if onPath && hasB then
            match children? with
            | some cs =>
              match List.lookup nextId cs with
              | some nb =>
                renderMsgs cp cpRest2 (path ++ [nextId]) (depth + 1) nb.forks nb.messages
              | none => []
            | none => []
          else []) msg = [] := by
      intro msg hm
      simp only [h msg hm]
      simp
    refine renderLoop_no_descend _ _ _ hno |>.trans ?_
    apply List.map_congr_left
    intro x hx
    rw [plainRItem_eq_mkRItem, h x hx]

/-! ### Claim theorems -/

/-- C1 (amended): in every state whose `currentPath` addresses an existing
first branch `root` that contains message `m` (first occurrence at index
`i`) and has no fork at `m`, `createNewBranch(m, c)` creates
`root.branches[m]` with exactly two children — child 1 a copy of the
messages after `m`, child 2 a single new message with content `c` and
sender `user` (its `isEdited` and `originalMessageId` are not set) —
truncates `root.messages` to the prefix up to and including `m`, returns
branch index 2, and leaves `currentPath` untouched. -/
theorem createNewBranch_first_fork (s : ChatState) (p0 : Nat) (rest : List Nat)
    (root : Branch) (m : Nat) (c : String) (fresh : Nat) (i : Nat)
    (hp : s.currentPath = p0 :: rest)
    (hr : List.lookup p0 s.branches = some root)
    (hi : List.findIdx? (fun x => x.id = m) root.messages = some i)
    (hnf : List.lookup m root.forks = none) :
    createNewBranch s m c fresh = .created 2
      { s with branches := setKey s.branches p0 (Branch.mk
          (root.messages.take (i + 1))
          (setKey root.forks m
            [(1, Branch.mk (root.messages.drop (i + 1)) []),
             (2, Branch.mk [⟨fresh, c, "user", none, none⟩] [])])) } := by
  have hfind : cnbFind m root 0 rest [] = .ok (some ([], root, i)) := by
    cases rest with
    | nil => rw [cnbFind, hi]
    | cons a t => rw [cnbFind, hi]
  rw [createNewBranch, hp]
  simp only [hr, hfind, hnf, writeSteps]

/-- Witness for C1's amended theorem at the spec's concrete scenario. -/
theorem createNewBranch_first_fork_witness :
    createNewBranch exS0 2 "edited" 100 = .created 2
      { exS0 with branches := setKey exS0.branches 1 (Branch.mk
          (exRoot.messages.take 2)
          (setKey exRoot.forks 2
            [(1, Branch.mk (exRoot.messages.drop 2) []),
             (2, Branch.mk [⟨100, "edited", "user", none, none⟩] [])])) } :=
  createNewBranch_first_fork exS0 1 [] exRoot 2 "edited" 100 1 rfl rfl rfl rfl

/-- C1 counterexample: at the spec's own scenario the message stored in the
new child 2 has neither `isEdited = true` nor `originalMessageId` set, so
the claim as stated (which requires both) fails. -/
theorem c1_fork_message_fields_counterexample :
    (do
      let root ← List.lookup 1 (cnbSt (createNewBranch exS0 2 "edited" 100)).branches
      let cs ← List.lookup 2 root.forks
      let b2 ← List.lookup 2 cs
      pure (b2.messages.map Message.isEdited)) = some [none] ∧
    (Option.none : Option Bool) ≠ some true :=
  ⟨rfl, by decide⟩

/-- C3 (amended): a repeated edit of `m` in the first branch of the path
allocates the new child at `getMaxBranchIndex(root.branches) + 1` — the
maximum over all branch indices of all fork entries of the branch, not
only those of `branches[m]` — and in particular this index never collides
with an existing child of `branches[m]`. -/
theorem createNewBranch_repeat_alloc (s : ChatState) (p0 : Nat) (rest : List Nat)
    (root : Branch) (m : Nat) (c : String) (fresh : Nat) (i : Nat)
    (children : List (Nat × Branch))
    (hp : s.currentPath = p0 :: rest)
    (hr : List.lookup p0 s.branches = some root)
    (hi : List.findIdx? (fun x => x.id = m) root.messages = some i)
    (hf : List.lookup m root.forks = some children) :
    createNewBranch s m c fresh = .created (getMaxBranchIndex root.forks + 1)
      { s with branches := setKey s.branches p0 (Branch.mk root.messages
          (setKey root.forks m (setKey children (getMaxBranchIndex root.forks + 1)
            (Branch.mk [⟨fresh, c, "user", none, none⟩] [])))) } ∧
    List.lookup (getMaxBranchIndex root.forks + 1) children = none := by
  constructor
  · have hfind : cnbFind m root 0 rest [] = .ok (some ([], root, i)) := by
      cases rest with
      | nil => rw [cnbFind, hi]
      | cons a t => rw [cnbFind, hi]
    rw [createNewBranch, hp]
    simp only [hr, hfind, hf, writeSteps]
  · cases hlk : List.lookup (getMaxBranchIndex root.forks + 1) children with
    | none => rfl
    | some b =>
      have hk := key_le_getMaxBranchIndex (mem_of_lookup hf) (mem_of_lookup hlk)
      omega

/-- Witness for C3's amended theorem: after a first edit created children
1 and 2, the second edit of the same message allocates exactly index 3. -/
theorem createNewBranch_repeat_alloc_witness :
    createNewBranch exAfterFork 2 "edited2" 101 = .created 3
      { exAfterFork with branches := setKey exAfterFork.branches 1 (Branch.mk
          [msgA, msgB]
          (setKey [(2, [(1, Branch.mk [] []),
                        (2, Branch.mk [⟨100, "edited", "user", none, none⟩] [])])] 2
            (setKey [(1, Branch.mk [] []),
                     (2, Branch.mk [⟨100, "edited", "user", none, none⟩] [])] 3
              (Branch.mk [⟨101, "edited2", "user", none, none⟩] [])))) } ∧
    List.lookup 3 [(1, Branch.mk [] []),
      (2, Branch.mk [⟨100, "edited", "user", none, none⟩] [])] = none :=
  createNewBranch_repeat_alloc exAfterFork 1 [] (Branch.mk [msgA, msgB]
      [(2, [(1, Branch.mk [] []),
            (2, Branch.mk [⟨100, "edited", "user", none, none⟩] [])])])
    2 "edited2" 101 1
    [(1, Branch.mk [] []), (2, Branch.mk [⟨100, "edited", "user", none, none⟩] [])]
    rfl rfl rfl rfl

/-- C3 counterexample: in the reachable state `exC3s` the fork table of
message 1 has children {1, 2}, so the claim predicts the next index
max{1,2} + 1 = 3; the code allocates 4, because `getMaxBranchIndex` also
counts the stale fork table of message 9. -/
theorem c3_alloc_counterexample :
    (do
      let root ← List.lookup 1 exC3s.branches
      let cs ← List.lookup 1 root.forks
      pure ((cs.map Prod.fst).foldl Nat.max 0 + 1)) = some 3 ∧
    cnbIdx (createNewBranch exC3s 1 "again" 7) = some 4 ∧
    (4 : Nat) ≠ 3 :=
  ⟨rfl, rfl, by decide⟩

/-- C4 (amended): `switchBranch(m, k)` does not validate the target
branch: whenever `m` is found in the first branch of the path it rewrites
`currentPath` to `[p0, k]` even though `branches[m][k]` does not exist,
mutating the path (the branch tree itself is untouched), and it returns no
success boolean. -/
theorem switchBranch_unvalidated (s : ChatState) (p0 : Nat) (rest : List Nat)
    (root : Branch) (m k : Nat) (i : Nat)
    (hp : s.currentPath = p0 :: rest)
    (hr : List.lookup p0 s.branches = some root)
    (hi : List.findIdx? (fun x => x.id = m) root.messages = some i)
    ( _hmiss : (List.lookup m root.forks).bind (List.lookup k) = none) :
    switchBranch s m k = .done { s with currentPath := [p0, k] } := by
  have hw : swWalk m root 0 rest [p0] = .ok (some [p0]) := by
    cases rest with
    | nil => rw [swWalk, hi]
    | cons a t => rw [swWalk, hi]
  rw [switchBranch, hp]
  simp only [hr, hw]
  rfl

/-- Witness for C4's amended theorem. -/
theorem switchBranch_unvalidated_witness :
    switchBranch exC4s 1 5 = .done { exC4s with currentPath := [1, 5] } :=
  switchBranch_unvalidated exC4s 1 [] (Branch.mk [⟨1, "a", "user", none, none⟩] [])
    1 5 0 rfl rfl rfl rfl

/-- C4 counterexample: with message 1 present but no `branches[1][5]`,
`switchBranch(1, 5)` mutates `currentPath` to `[1, 5]`, contradicting the
claim that it returns false and leaves `currentPath` unchanged. -/
theorem c4_switch_mutates_counterexample :
    switchBranch exC4s 1 5 = .done { currentPath := [1, 5], branches := exC4s.branches } ∧
    ([1, 5] : List Nat) ≠ exC4s.currentPath :=
  ⟨rfl, by decide⟩

/-- C7: projection is a pure function of the state: `renderChat` leaves
the tree and `currentPath` unchanged, and a second call on the state it
leaves behind produces exactly the same sequence. -/
theorem renderChat_pure (s : ChatState) :
    (renderChatOp s).2 = s ∧
    (renderChatOp ((renderChatOp s).2)).1 = (renderChatOp s).1 :=
  ⟨rfl, rfl⟩

/-- C10: `getCurrentBranch` is total and never null when the root of the
path exists: it returns some branch, and when the path cannot be followed
(no message of the root forks to the next path entry, or the path has no
tail) that branch is the root itself, which is what `addMessage` then
appends to. -/
theorem getCurrentBranch_total (s : ChatState) (p0 : Nat) (rest : List Nat)
    (root : Branch)
    (hp : s.currentPath = p0 :: rest)
    (hr : List.lookup p0 s.branches = some root) :
    ∃ b, getCurrentBranch s = some b ∧
      (rest = [] → b = root) ∧
      (∀ next rest2, rest = next :: rest2 →
        scanDescend root.forks next root.messages = none → b = root) := by
  refine ⟨goCurrent root rest, ?_, ?_, ?_⟩
  · rw [getCurrentBranch, hp]
    simp only [hr]
  · intro h
    subst h
    rfl
  · intro next rest2 h hs
    subst h
    rw [goCurrent, hs]

/-- Witness for C10: a dangling path entry (99) makes `getCurrentBranch`
fall back to the root branch rather than failing. -/
theorem getCurrentBranch_total_witness :
    getCurrentBranch exC10s = some exRoot := by
  obtain ⟨b, hb, -, hfall⟩ := getCurrentBranch_total exC10s 1 [99] exRoot rfl rfl
  rw [hb, hfall 99 [] rfl rfl]

/-- An id absent from the whole tree is absent from the active branch. -/
theorem occursB_goCurrent_false {m : Nat} {s : ChatState} {p0 : Nat}
    {rest : List Nat} {root : Branch}
    (h : occursTree m s = false)
    (hr : List.lookup p0 s.branches = some root) :
    occursB m (goCurrent root rest) = false := by
  cases hq : occursB m (goCurrent root rest) with
  | false => rfl
  | true =>
    exfalso
    have hroot : occursB m root = true := goCurrent_any root rest hq
    have : occursTree m s = true := lookup_any _ hr hroot
    rw [h] at this
    exact Bool.noConfusion this

/-- C2 (amended): starting from a state whose current path is the plain
root `[1]` holding messages `ms` with no fork anywhere, a first edit of a
message `m` of `ms` (creating branch 2 at `m`) followed by
`switchBranch(m, 1)` projects exactly the original message sequence `ms` —
the shared prefix followed by the original continuation — which is also
what projection produced before the edit. -/
theorem fork_preserves_original (ms : List Message) (m : Nat) (c : String)
    (fresh : Nat) (i : Nat)
    (hi : List.findIdx? (fun x => x.id = m) ms = some i)
    (hc : c ≠ "") :
    ∃ s1 s2 : ChatState,
      editMessage { currentPath := [1], branches := [(1, Branch.mk ms [])] } m c fresh
        = .done (some 2) s1 ∧
      switchBranch s1 m 1 = .done s2 ∧
      projMsgs s2 = some ms ∧
      projMsgs { currentPath := [1], branches := [(1, Branch.mk ms [])] } = some ms := by
  obtain ⟨a, hget, hpa, htake⟩ := findIdx?_some_spec hi
  have ha : a.id = m := of_decide_eq_true hpa
  set b1 : Branch := Branch.mk (ms.drop (i + 1)) [] with hb1
  set b2 : Branch := Branch.mk [⟨fresh, c, "user", none, none⟩] [] with hb2
  set cs : List (Nat × Branch) := [(1, b1), (2, b2)] with hcs
  set F : List (Nat × List (Nat × Branch)) := [(m, cs)] with hF
  set root' : Branch := Branch.mk (ms.take (i + 1)) F with hroot'
  have hfindTake : List.findIdx? (fun x => x.id = m) (ms.take (i + 1)) = some i :=
    findIdx?_take_succ hi
  -- the fork step
  have hcnb : createNewBranch { currentPath := [1], branches := [(1, Branch.mk ms [])] }
      m c fresh = .created 2 { currentPath := [1], branches := [(1, root')] } :=
    createNewBranch_first_fork _ 1 [] (Branch.mk ms []) m c fresh i rfl rfl hi rfl
  -- the switch onto the new branch, inside the edit flow
  have hw2 : swWalk m root' 0 [] [1] = .ok (some [1]) := by
    rw [swWalk]
    simp only [hroot', Branch.messages_mk, hfindTake]
  have hsw2 : switchBranch { currentPath := [1], branches := [(1, root')] } m 2 =
      .done { currentPath := [1, 2], branches := [(1, root')] } := by
    calc switchBranch { currentPath := [1], branches := [(1, root')] } m 2
        = (match swWalk m root' 0 [] [1] with
           | .error _ => SwOut.crash
           | .ok none => SwOut.done { currentPath := [1], branches := [(1, root')] }
           | .ok (some newPath) =>
             SwOut.done { currentPath := newPath ++ [2], branches := [(1, root')] }) := rfl
      _ = .done { currentPath := [1, 2], branches := [(1, root')] } := by
          rw [hw2]
          rfl
  have hgc : getCurrentBranch { currentPath := [1], branches := [(1, Branch.mk ms [])] }
      = some (Branch.mk ms []) := rfl
  have hedit : editMessage { currentPath := [1], branches := [(1, Branch.mk ms [])] }
      m c fresh = .done (some 2) { currentPath := [1, 2], branches := [(1, root')] } := by
    rw [editMessage, if_neg hc, hgc]
    simp only [Branch.messages_mk, hi, hcnb, hsw2]
  -- the switch back onto branch 1
  have hw1 : swWalk m root' 0 [2] [1] = .ok (some [1]) := by
    rw [swWalk]
    simp only [hroot', Branch.messages_mk, hfindTake]
  have hsw1 : switchBranch { currentPath := [1, 2], branches := [(1, root')] } m 1 =
      .done { currentPath := [1, 1], branches := [(1, root')] } := by
    calc switchBranch { currentPath := [1, 2], branches := [(1, root')] } m 1
        = (match swWalk m root' 0 [2] [1] with
           | .error _ => SwOut.crash
           | .ok none => SwOut.done { currentPath := [1, 2], branches := [(1, root')] }
           | .ok (some newPath) =>
             SwOut.done { currentPath := newPath ++ [1], branches := [(1, root')] }) := rfl
      _ = .done { currentPath := [1, 1], branches := [(1, root')] } := by
          rw [hw1]
          rfl
  -- projection before the edit
  have hproj0 : projMsgs { currentPath := [1], branches := [(1, Branch.mk ms [])] }
      = some ms := by
    have h1 : projectChat { currentPath := [1], branches := [(1, Branch.mk ms [])] } =
        some (renderMsgs [1] [] [1] 0 [] ms) := rfl
    rw [projMsgs, h1, renderMsgs_no_forks]
    simp only [Option.map_some', map_msg_plainRItem]
  -- projection after switching back
  have hsplit : ms.take (i + 1) = ms.take i ++ [a] := by
    rw [List.get?_eq_getElem?] at hget
    rw [List.take_succ, hget]
    rfl
  have hnof : ∀ x ∈ ms.take i, List.lookup x.id F = none := by
    intro x hx
    have hne : decide (x.id = m) = false := htake x hx
    have : (x.id == m) = false := by
      rw [beq_eq_false_iff_ne]
      exact of_decide_eq_false hne
    rw [hF, List.lookup, this]
    rfl
  have hproj2 : projMsgs { currentPath := [1, 1], branches := [(1, root')] }
      = some ms := by
    have h1 : projectChat { currentPath := [1, 1], branches := [(1, root')] } =
        some (renderMsgs [1, 1] [1] [1] 0 F (ms.take (i + 1))) := rfl
    rw [projMsgs, h1, hsplit, renderMsgs_append_no_fork _ _ _ _ _ _ _ hnof]
    have hlkA : List.lookup a.id F = some cs := by
      rw [hF, List.lookup, show (a.id == m) = true from beq_iff_eq.mpr ha]
    have hbridge : renderMsgs [1, 1] [1] [1] 0 F [a] =
        (fun (o : Option (List (Nat × Branch))) =>
          mkRItem [1, 1] [1] 0 o a ::
            ((if (match o with
                  | some cs2 => !cs2.isEmpty
                  | none => false) then
                match o with
                | some cs2 =>
                  match List.lookup 1 cs2 with
                  | some nb => renderMsgs [1, 1] [] [1, 1] 1 nb.forks nb.messages
                  | none => []
                | none => []
              else []) ++ [])) (List.lookup a.id F) := rfl
    have hone : renderMsgs [1, 1] [1] [1] 0 F [a] =
        mkRItem [1, 1] [1] 0 (some cs) a ::
          (renderMsgs [1, 1] [] [1, 1] 1 [] (ms.drop (i + 1)) ++ []) := by
      rw [hbridge, hlkA]
      rfl
    rw [hone, renderMsgs_no_forks]
    have hms : List.take i ms ++ a :: List.drop (i + 1) ms = ms := by
      have h2 := List.take_append_drop (i + 1) ms
      rw [hsplit] at h2
      simpa [List.append_assoc] using h2
    have hmk : (mkRItem [1, 1] [1] 0 (some cs) a).msg = a := rfl
    simp only [Option.map_some', List.append_nil, List.map_append, List.map_cons,
      map_msg_plainRItem, hmk, hms]
  exact ⟨_, _, hedit, hsw1, hproj2, hproj0⟩

/-- Witness for C2's amended theorem at the spec's concrete scenario. -/
theorem fork_preserves_original_witness :
    projMsgs (swSt (switchBranch (editSt (editMessage
      { currentPath := [1], branches := [(1, Branch.mk [msgA, msgB] [])] } 2 "edited" 100))
      2 1)) = some [msgA, msgB] ∧
    projMsgs { currentPath := [1], branches := [(1, Branch.mk [msgA, msgB] [])] }
      = some [msgA, msgB] := by
  obtain ⟨s1, s2, he, hs, hp2, hp0⟩ :=
    fork_preserves_original [msgA, msgB] 2 "edited" 100 1 rfl (by decide)
  rw [he]
  simp only [editSt]
  rw [hs]
  simp only [swSt]
  exact ⟨hp2, hp0⟩

/-- C2 counterexample: through the operation-built states `exTPre`
(reachable via an accepted bogus `switchBranch(a, 99)`), a first edit of
message c (id 5, creating branch 2 at it) followed by `switchBranch(5, 1)`
projects `[x, a, y, c]`, while projection before the edit gave
`[x, a, c]` — the unrestricted claim fails. -/
theorem c2_projection_differs_counterexample :
    (List.lookup 1 exTPre.branches).bind (fun root => List.lookup 5 root.forks) = none ∧
    projMsgs exTPre = some [⟨1, "x", "user", none, none⟩, ⟨2, "a", "user", none, none⟩,
      ⟨5, "c", "user", none, none⟩] ∧
    editMessage exTPre 5 "n2" 6 = .done (some 2) exTE2 ∧
    switchBranch exTE2 5 1 = .done exTFin ∧
    projMsgs exTFin = some [⟨1, "x", "user", none, none⟩, ⟨2, "a", "user", none, none⟩,
      ⟨3, "y", "user", none, none⟩, ⟨5, "c", "user", none, none⟩] ∧
    ([⟨1, "x", "user", none, none⟩, ⟨2, "a", "user", none, none⟩,
      ⟨3, "y", "user", none, none⟩, ⟨5, "c", "user", none, none⟩] : List Message) ≠
      [⟨1, "x", "user", none, none⟩, ⟨2, "a", "user", none, none⟩,
       ⟨5, "c", "user", none, none⟩] :=
  ⟨rfl, rfl, rfl, rfl, rfl, by decide⟩

/-- C5: for every state and every message id that occurs nowhere in the
tree, the edit flow (`handleMessageSubmit` with `editingMessageId` set)
returns a not-found result (`none`) and performs no mutation at all: the
state, branches and `currentPath` included, is returned unchanged. -/
theorem editMessage_not_found (s : ChatState) (m : Nat) (c : String) (fresh : Nat)
    (h : occursTree m s = false) :
    editMessage s m c fresh = .done none s := by
  rw [editMessage]
  by_cases hc : c = ""
  · simp [hc]
  · simp only [if_neg hc]
    cases hp : s.currentPath with
    | nil =>
      have hgc : getCurrentBranch s = none := by simp only [getCurrentBranch, hp]
      rw [hgc]
    | cons p0 rest =>
      cases hr : List.lookup p0 s.branches with
      | none =>
        have hgc : getCurrentBranch s = none := by simp only [getCurrentBranch, hp, hr]
        rw [hgc]
      | some root =>
        have hgc : getCurrentBranch s = some (goCurrent root rest) := by
          simp only [getCurrentBranch, hp, hr]
        rw [hgc]
        simp only []
        have hocc := @occursB_goCurrent_false m s p0 rest root h hr
        rw [occursB, anyB_def, Bool.or_eq_false_iff] at hocc
        have hfind : List.findIdx? (fun x => x.id = m)
            (goCurrent root rest).messages = none := by
          rw [List.findIdx?_eq_none_iff]
          intro x hx
          cases hpx : (fun (x : Message) => decide (x.id = m)) x with
          | false => exact hpx
          | true =>
            exfalso
            have : ((goCurrent root rest).messages.any fun x => decide (x.id = m)) = true :=
              List.any_eq_true.mpr ⟨x, hx, hpx⟩
            rw [hocc.1] at this
            exact Bool.noConfusion this
        simp only [hfind]

/-- Witness for C5 at a concrete absent id. -/
theorem editMessage_not_found_witness :
    editMessage exS0 99 "zz" 7 = .done none exS0 :=
  editMessage_not_found exS0 99 "zz" 7 rfl

/-- C9: every message created by the fork step of `createNewBranch` is
tagged `sender = "user"`, whatever the sender of the edited message was:
any message present in the tree after a successful fork was either already
present before it or is the new user-tagged message. -/
theorem createNewBranch_new_sender (s : ChatState) (m : Nat) (c : String)
    (fresh : Nat) (idx : Nat) (s' : ChatState)
    (h : createNewBranch s m c fresh = .created idx s') :
    ∀ msg : Message, memTree msg s' = true →
      memTree msg s = true ∨ msg.sender = "user" := by
  intro msg hmem
  rw [createNewBranch] at h
  split at h
  · exact CnbOut.noConfusion h
  · rename_i p0 rest hp
    split at h
    · exact CnbOut.noConfusion h
    · rename_i root hr
      split at h
      · exact CnbOut.noConfusion h
      · exact CnbOut.noConfusion h
      · rename_i steps tb i hcf
        have hmem_tb_tree : memB msg tb = true → memTree msg s = true := by
          intro htb
          have hroot : memB msg root = true :=
            cnbFind_any m rest root 0 [] steps tb i hcf htb
          exact lookup_any _ hr hroot
        split at h
        · rename_i hlk
          simp only [CnbOut.created.injEq] at h
          obtain ⟨-, hs'⟩ := h
          subst hs'
          rw [memTree] at hmem
          rcases any_setKey _ _ _ _ hmem with hold | hw
          · exact Or.inl hold
          · rcases writeSteps_any _ _ _ hw with htb | htb'
            · exact Or.inl (lookup_any (fun b => memB msg b) hr htb)
            · rw [anyB_def, Branch.messages_mk, Branch.forks_mk,
                Bool.or_eq_true] at htb'
              rcases htb' with hmsg | hforks
              · obtain ⟨x, hx, hpx⟩ := List.any_eq_true.mp hmsg
                have hxm : x = msg := of_decide_eq_true hpx
                subst hxm
                exact Or.inl (hmem_tb_tree
                  (anyB_of_mem_messages (List.mem_of_mem_take hx) hpx))
              · rcases anyForks_setKey hforks with hold2 | hch
                · exact Or.inl (hmem_tb_tree (anyB_of_forks hold2))
                · rw [anyChildren, anyChildren, anyChildren,
                    Bool.or_eq_true, Bool.or_eq_true] at hch
                  rcases hch with hb1 | hb2 | hfalse
                  · rw [anyB_def, Branch.messages_mk, Branch.forks_mk] at hb1
                    simp only [anyForks, Bool.or_false] at hb1
                    obtain ⟨x, hx, hpx⟩ := List.any_eq_true.mp hb1
                    have hxm : x = msg := of_decide_eq_true hpx
                    subst hxm
                    exact Or.inl (hmem_tb_tree
                      (anyB_of_mem_messages (List.mem_of_mem_drop hx) hpx))
                  · rw [anyB_def, Branch.messages_mk, Branch.forks_mk] at hb2
                    simp only [anyForks, Bool.or_false] at hb2
                    obtain ⟨x, hx, hpx⟩ := List.any_eq_true.mp hb2
                    have hxm : x = msg := of_decide_eq_true hpx
                    rw [List.mem_singleton] at hx
                    subst hxm
                    subst hx
                    exact Or.inr rfl
                  · exact Bool.noConfusion hfalse
        · rename_i children hlk
          simp only [CnbOut.created.injEq] at h
          obtain ⟨-, hs'⟩ := h
          subst hs'
          rw [memTree] at hmem
          rcases any_setKey _ _ _ _ hmem with hold | hw
          · exact Or.inl hold
          · rcases writeSteps_any _ _ _ hw with htb | htb'
            · exact Or.inl (lookup_any (fun b => memB msg b) hr htb)
            · rw [anyB_def, Branch.messages_mk, Branch.forks_mk,
                Bool.or_eq_true] at htb'
              rcases htb' with hmsg | hforks
              · obtain ⟨x, hx, hpx⟩ := List.any_eq_true.mp hmsg
                have hxm : x = msg := of_decide_eq_true hpx
                subst hxm
                exact Or.inl (hmem_tb_tree (anyB_of_mem_messages hx hpx))
              · rcases anyForks_setKey hforks with hold2 | hch
                · exact Or.inl (hmem_tb_tree (anyB_of_forks hold2))
                · rcases anyChildren_setKey hch with hchold | hnb
                  · exact Or.inl (hmem_tb_tree
                      (anyB_of_forks (anyForks_of_lookup hlk hchold)))
                  · rw [anyB_def, Branch.messages_mk, Branch.forks_mk] at hnb
                    simp only [anyForks, Bool.or_false] at hnb
                    obtain ⟨x, hx, hpx⟩ := List.any_eq_true.mp hnb
                    have hxm : x = msg := of_decide_eq_true hpx
                    rw [List.mem_singleton] at hx
                    subst hxm
                    subst hx
                    exact Or.inr rfl

/-- Witness for C9: editing the assistant message A produces a
replacement tagged as a user message. -/
theorem createNewBranch_new_sender_witness :
    memTree ⟨50, "z", "user", none, none⟩ exS0 = true ∨
      Message.sender ⟨50, "z", "user", none, none⟩ = "user" :=
  createNewBranch_new_sender exS0 1 "z" 50 2
    (cnbSt (createNewBranch exS0 1 "z" 50)) rfl
    ⟨50, "z", "user", none, none⟩ rfl

/-- The invariant of a fresh tree under `addMessage`: the root accumulates
the pushed messages and nothing else changes. -/
theorem addAll_flat (adds : List (String × String × Nat)) : ∀ ms : List Message,
    addAll { currentPath := [1], branches := [(1, Branch.mk ms [])] } adds =
      { currentPath := [1], branches := [(1, Branch.mk (ms ++ adds.map mkAdded) [])] } := by
  induction adds with
  | nil => intro ms; simp [addAll]
  | cons t rest ih =>
    intro ms
    obtain ⟨c, snd, f⟩ := t
    have h1 : addAll { currentPath := [1], branches := [(1, Branch.mk ms [])] }
        ((c, snd, f) :: rest) =
        addAll
          { currentPath := [1],
            branches := [(1, Branch.mk (ms ++ [⟨f, c, snd, none, none⟩]) [])] } rest := rfl
    rw [h1]
    have h2 := ih (ms ++ [(⟨f, c, snd, none, none⟩ : Message)])
    rw [h2]
    simp [mkAdded]

/-- C6: a fresh tree followed by any sequence of `addMessage` calls (and
no edits) projects to exactly the added messages, in call order, each
rendered plainly at depth 0 on the active path, with nothing else. -/
theorem project_append_only (adds : List (String × String × Nat)) :
    projectChat (addAll initialState adds) =
      some ((adds.map mkAdded).map (plainRItem [1] [1] 0)) := by
  have h0 : initialState =
      { currentPath := [1], branches := [(1, Branch.mk ([] : List Message) [])] } := rfl
  rw [h0, addAll_flat adds []]
  have h2 : projectChat
      { currentPath := [1],
        branches := [(1, Branch.mk ([] ++ adds.map mkAdded) [])] } =
      some (renderMsgs [1] [] [1] 0 [] ([] ++ adds.map mkAdded)) := rfl
  rw [h2, renderMsgs_no_forks]
  simp

end AgentTeam

namespace WebAppResolver

mutual

/-- A target index absent from an entry's subtree is never found by
`searchEntry`. -/
theorem searchEntry_absent (target : Nat) : (e : Entry) →
    occursEntry target e = false → searchEntry target e = none
  | Entry.mk i c r d, h => by
    rw [occursEntry, Bool.or_eq_false_iff] at h
    obtain ⟨hne, hd⟩ := h
    rw [searchEntry, if_neg (by exact of_decide_eq_false hne),
      searchDiffs_absent target d hd]

/-- A target index absent from every diffusion is never found by
`searchDiffs`. -/
theorem searchDiffs_absent (target : Nat) : (ds : List (Nat × List Entry)) →
    occursDiffs target ds = false → searchDiffs target ds = none
  | [], _ => rfl
  | (k, hist) :: ds, h => by
    rw [occursDiffs, Bool.or_eq_false_iff] at h
    obtain ⟨hh, hds⟩ := h
    rw [searchDiffs, searchHistory_absent target hist hh,
      searchDiffs_absent target ds hds]

/-- A target index absent from a history is never found by
`searchHistory`. -/
theorem searchHistory_absent (target : Nat) : (l : List Entry) →
    occursHistory target l = false → searchHistory target l = none
  | [], _ => rfl
  | e :: rest, h => by
    rw [occursHistory, Bool.or_eq_false_iff] at h
    obtain ⟨he, hrest⟩ := h
    rw [searchHistory, searchEntry_absent target e he,
      searchHistory_absent target rest hrest]

end

/-- C8: for every tree and every target index that occurs nowhere in it,
the path resolver `findPathToIndex` returns null; its depth-first search
is total by construction (structural recursion over the finite history
tree, which is the only shape the mutation operations build). -/
theorem findPathToIndex_absent (history : List Entry) (target : Nat)
    (h : occursHistory target history = false) :
    findPathToIndex history target = none := by
  rw [findPathToIndex, searchHistory_absent target history h]

/-- Witness for C8 at a concrete two-entry history with one diffusion. -/
theorem findPathToIndex_absent_witness :
    findPathToIndex exHist 7 = none :=
  findPathToIndex_absent exHist 7 rfl

end WebAppResolver
